import Mathlib

set_option linter.unusedVariables false

/-!
Shallow embedding of the gadgetbridge Telegraf input plugin
(src/gadgetbridge/plugin.go) and proofs checking the natural-language
specification against it.

The plugin incrementally extracts rows from SQLite tables.  Per table it
builds a query selecting the timestamp column, then the tag columns, then
the field columns, ordered ascending by timestamp and filtered to
timestamps strictly greater than a per-table watermark (when one is
stored); each decoded row is emitted as a point and advances the
watermark.  `Gather` drives this per database path and per table
descriptor, joining all recorded errors.  `GetState`/`SetState`/`Init`
expose the watermark map as persistable plugin state.

Go maps are embedded as insertion-ordered association lists; Go map
reference semantics (needed for the state-aliasing claims about
`maps.Clone` in GetState versus the plain assignment in SetState) are
embedded by a small heap of map cells addressed by natural-number
references.  The SQLite engine executing the built query is embedded by
`queryRows` (filter then stable ascending sort); row decoding failures and
engine failures are injected through the `DBEnv` environment, whose
`pureEnv` instance is the failure-free semantics over a pure data store.
-/

namespace Gadgetbridge

/-- A dynamically-typed scalar decoded from a field column: the Go code
scans field columns into `any`, so the value keeps the engine's native
type (int64, float64, text, or NULL). -/
inductive Scalar where
  | int (z : Int)
  | real (q : Rat)
  | text (s : String)
  | null
  deriving Repr, DecidableEq

/-- One decoded row of a table scan: the timestamp column value followed
by the tag column values (scanned as strings) and the field column values,
positionally (matching the select order built in `gatherTable`). -/
structure Row where
  ts : Int
  tagVals : List String
  fieldVals : List Scalar
  deriving Repr, DecidableEq

/-- Go `map[string]V` lookup `m[k]` on the association-list embedding. -/
def mget {α : Type} : List (String × α) → String → Option α
  | [], _ => none
  | e :: rest, k => if e.1 = k then some e.2 else mget rest k

/-- Go `map[string]V` assignment `m[k] = v`: overwrite the entry if the key
is present, otherwise add it. -/
def mset {α : Type} : List (String × α) → String → α → List (String × α)
  | [], k, v => [(k, v)]
  | e :: rest, k, v => if e.1 = k then (k, v) :: rest else e :: mset rest k v

/-- The watermark map: `pluginState.LastTableTimes`, `map[string]int64`
from table name to the last timestamp read from that table. -/
abbrev WMap := List (String × Int)

/-- `TableColumns` describes the columns in a table (plugin.go lines
74-83): the timestamp column name, the tag column names and the field
column names. -/
structure TableColumns where
  timestamp : String
  tags : List String
  fields : List String
  deriving Repr, DecidableEq

/-- `TableDescription` describes a table in the database (plugin.go lines
66-71). -/
structure TableDescription where
  name : String
  columns : TableColumns
  deriving Repr, DecidableEq

/-- The two built-in table descriptors (`knownTables`, plugin.go lines
85-102). -/
def knownTables : List TableDescription :=
  [ { name := "HYBRID_HRACTIVITY_SAMPLE"
    , columns :=
        { timestamp := "TIMESTAMP"
        , tags := ["USER_ID", "DEVICE_ID"]
        , fields := ["WEAR_TYPE", "STEPS", "CALORIES", "VARIABILITY",
                     "MAX_VARIABILITY", "HEARTRATE_QUALITY", "ACTIVE",
                     "HEART_RATE"] } }
  , { name := "BATTERY_LEVEL"
    , columns :=
        { timestamp := "TIMESTAMP"
        , tags := ["DEVICE_ID", "BATTERY_INDEX"]
        , fields := ["LEVEL"] } } ]

/-- The plugin's configuration and watermark state: `DatabasePaths`,
`ExtraTables`, and `state.LastTableTimes` (value view). -/
structure Plugin where
  databasePaths : List String
  extraTables : List TableDescription
  state : WMap
  deriving Repr, DecidableEq

/-- `slices.Concat(knownTables, p.ExtraTables)` (plugin.go line 139): the
merged catalog, built-ins first, then extras, in order. -/
def mergedTables (p : Plugin) : List TableDescription :=
  knownTables ++ p.extraTables

/-- The query built by `gatherTable` (plugin.go lines 156-166): SELECT the
listed columns FROM the table, ORDER BY the named column ASC, and an
optional `column > value` filter. -/
structure Query where
  table : String
  selectCols : List String
  orderAscBy : String
  whereGt : Option Int
  deriving Repr, DecidableEq

/-- Query construction from `gatherTable` (plugin.go lines 156-166):
select timestamp, then tags, then fields, from the table, ordered
ascending by the timestamp column; add `timestamp > lastTime` exactly when
the watermark map has an entry for the table name. -/
def buildQuery (wm : WMap) (t : TableDescription) : Query :=
  { table := t.name
  , selectCols := [t.columns.timestamp] ++ t.columns.tags ++ t.columns.fields
  , orderAscBy := t.columns.timestamp
  , whereGt := mget wm t.name }

/-- Whether a row passes the query's optional `timestamp > v` filter. -/
def rowPass (w : Option Int) (r : Row) : Bool :=
  match w with
  | none => true
  | some v => decide (v < r.ts)

/-- Insert a row into an ascending-by-timestamp list (helper for the
`ORDER BY ts ASC` semantics of the engine). -/
def insertRow (r : Row) : List Row → List Row
  | [] => [r]
  | x :: xs => if r.ts ≤ x.ts then r :: x :: xs else x :: insertRow r xs

/-- Stable ascending sort by timestamp: the `ORDER BY ts ASC` clause of
the built query, as executed by the engine. -/
def sortRows : List Row → List Row
  | [] => []
  | x :: xs => insertRow x (sortRows xs)

/-- The rows the engine returns for the built query over a table's
contents: filter by the optional `ts > v` clause, then order ascending by
timestamp. -/
def queryRows (w : Option Int) (rows : List Row) : List Row :=
  sortRows (rows.filter (rowPass w))

/-- A pure data store: the rows of each table of each database path. -/
abbrev DataStore := String → String → List Row

/-- The environment `Gather` runs against: open/close outcomes per path
and, per path and built query, either a failure (covering goqu `ToSQL`
errors and `db.Query` errors) or a cursor whose elements are either
decoded rows or a mid-cursor failure (covering `r.Scan` and `r.Err`
failures). -/
structure DBEnv where
  openErr : String → Option String
  runQuery : String → Query → Except String (List (Except String Row))
  closeErr : String → Option String

/-- The failure-free environment over a pure data store: opening and
closing always succeed and the built query is answered by `queryRows` on
the table's contents. -/
def pureEnv (store : DataStore) : DBEnv :=
  { openErr := fun _ => none
  , runQuery := fun path q =>
      Except.ok ((queryRows q.whereGt (store path q.table)).map Except.ok)
  , closeErr := fun _ => none }

/-- One point handed to the accumulator by `acc.AddFields` (plugin.go line
208): measurement, fields, tags, and the timestamp `time.Unix(ts, 0)`
kept as its integer epoch-seconds value. -/
structure Point where
  measurement : String
  fields : List (String × Scalar)
  tags : List (String × String)
  time : Int
  deriving Repr, DecidableEq

/-- The mutable per-table locals of the `gatherTable` row loop: the `tags`
and `fields` maps allocated once before the loop (plugin.go lines 179-181)
and the plugin's watermark map. -/
structure TState where
  tags : List (String × String)
  fields : List (String × Scalar)
  wm : WMap
  deriving Repr, DecidableEq

/-- The per-row column writes of the loop (plugin.go lines 198-206): for
each configured column, in order, write the positionally corresponding
decoded value under the lower-cased column name. -/
def zipLower {α : Type} (cols : List String) (vals : List α) :
    List (String × α) :=
  (cols.zip vals).map (fun cv => (cv.1.toLower, cv.2))

/-- Write all of a row's decoded values for the given columns into a map,
in column order, keys lower-cased. -/
def decodeInto {α : Type} (cols : List String) (vals : List α)
    (m : List (String × α)) : List (String × α) :=
  (zipLower cols vals).foldl (fun acc kv => mset acc kv.1 kv.2) m

/-- One iteration of the row loop (plugin.go lines 198-209): write the
row's tags and fields into the loop's maps, emit the point
`(lower-cased table name, fields, tags, time.Unix(ts, 0))`, and set the
watermark entry for the table to the row's timestamp. -/
def processRow (t : TableDescription) (st : TState) (r : Row) :
    TState × Point :=
  let tags := decodeInto t.columns.tags r.tagVals st.tags
  let fields := decodeInto t.columns.fields r.fieldVals st.fields
  ( { tags := tags, fields := fields, wm := mset st.wm t.name r.ts }
  , { measurement := t.name.toLower, fields := fields, tags := tags
    , time := r.ts } )

/-- The row loop (plugin.go lines 193-214): process cursor elements in
order; a failed element (Scan or cursor error) stops the loop, returning
the state and points accumulated so far together with the error. -/
def processRows (t : TableDescription) :
    List (Except String Row) → TState → TState × List Point × Option String
  | [], st => (st, [], none)
  | Except.error e :: _, st => (st, [], some e)
  | Except.ok r :: rest, st =>
      let sp := processRow t st r
      let rec' := processRows t rest sp.1
      (rec'.1, sp.2 :: rec'.2.1, rec'.2.2)

/-- `gatherTable` (plugin.go lines 155-217): build the query, run it, and
loop over the cursor starting from a tags map already holding the
`database_path` tag and an empty fields map.  Returns the updated
watermark map, the points emitted (in emission order), and the error, if
any. -/
def gatherTable (env : DBEnv) (path : String) (t : TableDescription)
    (wm : WMap) : (WMap × List Point) × Option String :=
  match env.runQuery path (buildQuery wm t) with
  | Except.error e => ((wm, []), some e)
  | Except.ok cursor =>
      let r := processRows t cursor
        { tags := [("database_path", path)], fields := [], wm := wm }
      ((r.1.wm, r.2.1), r.2.2)

/-- The result of a gather cycle (or of part of one): the watermark map,
the points delivered to the accumulator in delivery order, and the
recorded error messages in recording order (`errs` in plugin.go). -/
structure GRes where
  wm : WMap
  points : List Point
  errs : List String
  deriving Repr, DecidableEq

/-- The inner loop of `Gather` (plugin.go lines 139-143): run
`gatherTable` for each descriptor in order; a table failure records one
error and processing continues with the next descriptor. -/
def gatherTables (env : DBEnv) (path : String) :
    List TableDescription → WMap → GRes
  | [], wm => { wm := wm, points := [], errs := [] }
  | t :: ts, wm =>
      let gt := gatherTable env path t wm
      let r := gatherTables env path ts gt.1.1
      { wm := r.wm
      , points := gt.1.2 ++ r.points
      , errs :=
          (match gt.2 with
           | none => []
           | some e => ["error at table " ++ t.name ++ ": " ++ e]) ++ r.errs }

/-- The outer loop of `Gather` (plugin.go lines 132-148): per database
path, open (a failure records one error and skips the whole path), gather
every table of the catalog, then close (a failure records one error). -/
def gatherPaths (env : DBEnv) (tables : List TableDescription) :
    List String → WMap → GRes
  | [], wm => { wm := wm, points := [], errs := [] }
  | path :: rest, wm =>
      match env.openErr path with
      | some e =>
          let r := gatherPaths env tables rest wm
          { wm := r.wm
          , points := r.points
          , errs := ("failed to open database " ++ path ++ ": " ++ e)
              :: r.errs }
      | none =>
          let rt := gatherTables env path tables wm
          let r := gatherPaths env tables rest rt.wm
          { wm := r.wm
          , points := rt.points ++ r.points
          , errs := rt.errs ++
              (match env.closeErr path with
               | some e =>
                   ["failed to close database " ++ path ++ ": " ++ e]
               | none => []) ++ r.errs }

/-- `Gather` (plugin.go lines 126-151): process every configured path
against the merged catalog, starting from the plugin's watermark state. -/
def Gather (env : DBEnv) (p : Plugin) : GRes :=
  gatherPaths env (mergedTables p) p.databasePaths p.state

/-- `errors.Join(errs...)` (plugin.go line 150): nil exactly when no error
was recorded, otherwise one aggregate error. -/
def gatherError (errs : List String) : Option String :=
  if errs.isEmpty then none else some (String.intercalate "\n" errs)

/-- Value view of `GetState` (plugin.go lines 235-242): the returned
snapshot holds a map with the same entries as the live state
(`maps.Clone`). -/
def getStateV (p : Plugin) : WMap := p.state

/-- Value view of the `pluginState` case of `SetState` (plugin.go line
254): the plugin's state becomes the given mapping. -/
def setStateV (p : Plugin) (w : WMap) : Plugin := { p with state := w }

/-! ### Heap embedding of Go map reference semantics

`GetState` returns `pluginState{LastTableTimes: maps.Clone(p.state.LastTableTimes)}`
— a freshly allocated map with equal contents — while `SetState`'s
`pluginState` case runs `p.state = state`, which copies the struct but
shares the map reference inside it.  To state the aliasing claims we model
maps as cells in a heap addressed by `Ref`. -/

/-- A heap of map cells; a `Ref` is an index into it. -/
structure Heap where
  cells : List WMap
  deriving Repr, DecidableEq

abbrev Ref := Nat

/-- Allocate a fresh map cell. -/
def halloc (h : Heap) (m : WMap) : Heap × Ref :=
  ({ cells := h.cells ++ [m] }, h.cells.length)

/-- Read the map behind a reference. -/
def hread (h : Heap) (r : Ref) : WMap := h.cells.getD r []

/-- Replace the map behind a reference. -/
def hwrite (h : Heap) (r : Ref) (m : WMap) : Heap :=
  { cells := h.cells.set r m }

/-- Mutate one entry of the map behind a reference (`m[k] = v` performed
by whoever holds the reference). -/
def setEntryH (h : Heap) (r : Ref) (k : String) (v : Int) : Heap :=
  hwrite h r (mset (hread h r) k v)

/-- The `state interface{}` argument of `SetState` (plugin.go lines
244-257): nil, a `pluginState` (which carries a reference to a
`LastTableTimes` map), or a value of any other type. -/
inductive StateArg where
  | noState
  | snapshot (r : Ref)
  | other (typeName : String)
  deriving Repr, DecidableEq

/-- `GetState` (plugin.go lines 235-242): return a `pluginState` holding
`maps.Clone` of the live mapping — a freshly allocated cell with equal
contents. -/
def GetStateH (h : Heap) (pref : Ref) : Heap × StateArg :=
  let hr := halloc h (hread h pref)
  (hr.1, StateArg.snapshot hr.2)

/-- `SetState` (plugin.go lines 244-260): nil resets the plugin to a fresh
empty map; a `pluginState` is assigned as-is, so the plugin adopts the
caller's map reference; any other type is an error. -/
def SetStateH (h : Heap) (arg : StateArg) : Except String (Heap × Ref) :=
  match arg with
  | StateArg.noState => Except.ok (halloc h [])
  | StateArg.snapshot r => Except.ok (h, r)
  | StateArg.other ty => Except.error ("invalid state type: " ++ ty)

/-- `Init` (plugin.go lines 59-62): `p.SetState(nil)` with the result
discarded, then `return nil`.  It reads no configuration field and
performs no descriptor validation; the plugin argument is present only
because Init is a method on the plugin. -/
def InitH (p : Plugin) (h : Heap) (pref : Ref) : (Heap × Ref) × Option String :=
  match SetStateH h StateArg.noState with
  | Except.ok hr => (hr, none)
  | Except.error _ => ((h, pref), none)

/-! ### Derived observations used by the claims -/

/-- The sequence of timestamps a cursor makes the loop pass to the
watermark assignment `p.state.LastTableTimes[t.Name] = ts` (plugin.go line
209): one per successfully scanned row, in loop order (`processRows`
performs exactly these `mset` calls, see `processRows_wm`). -/
def advanceCalls : List (Except String Row) → List Int
  | [] => []
  | Except.error _ :: _ => []
  | Except.ok r :: rest => r.ts :: advanceCalls rest

/-- The watermark-advance timestamps of one `gatherTable` invocation. -/
def tableAdvances (env : DBEnv) (path : String) (t : TableDescription)
    (wm : WMap) : List Int :=
  match env.runQuery path (buildQuery wm t) with
  | Except.error _ => []
  | Except.ok cursor => advanceCalls cursor

/-- Fold of watermark assignments for one table name, used to describe the
watermark evolution of the row loop. -/
def wmFold (n : String) (w : WMap) (xs : List Int) : WMap :=
  xs.foldl (fun w x => mset w n x) w

/-- The point the specification describes for one row: measurement is the
lower-cased table name, tags are the `database_path` tag united with the
decoded tags, fields are the decoded fields, each keyed by the lower-cased
column name, and the time is the row's epoch-seconds timestamp.  Built
against fresh maps (unlike the loop, which reuses its maps across
rows). -/
def pointForRow (t : TableDescription) (path : String) (r : Row) : Point :=
  { measurement := t.name.toLower
  , fields := decodeInto t.columns.fields r.fieldVals []
  , tags := decodeInto t.columns.tags r.tagVals [("database_path", path)]
  , time := r.ts }

/-- A strictly increasing list of integers (the property claimed of the
advance-call sequence). -/
def strictIncInt : List Int → Prop
  | [] => True
  | [_] => True
  | a :: b :: rest => a < b ∧ strictIncInt (b :: rest)

/-- A non-decreasing list of integers. -/
def nondecInt : List Int → Prop
  | [] => True
  | [_] => True
  | a :: b :: rest => a ≤ b ∧ nondecInt (b :: rest)

/-- A list of rows ascending by timestamp. -/
def ascRows : List Row → Prop
  | [] => True
  | [_] => True
  | a :: b :: rest => a.ts ≤ b.ts ∧ ascRows (b :: rest)

/-- The watermark already covers every row of this table of this path:
each stored row's timestamp is at most the stored watermark entry. -/
def tableDone (store : DataStore) (wm : WMap) (path : String)
    (t : TableDescription) : Prop :=
  ∀ r ∈ store path t.name, ∃ v, mget wm t.name = some v ∧ r.ts ≤ v

/-- Entry-wise watermark growth: every stored entry stays present and does
not decrease. -/
def wmMono (w w' : WMap) : Prop :=
  ∀ n v, mget w n = some v → ∃ v', mget w' n = some v' ∧ v ≤ v'

/-- Whether every step of a cycle over these paths succeeds: opening
succeeds, no table records an error, and closing succeeds, threading the
watermark exactly as the cycle does. -/
def pathsOK (env : DBEnv) (tables : List TableDescription) :
    List String → WMap → Bool
  | [], _ => true
  | path :: rest, wm =>
      match env.openErr path with
      | some _ => false
      | none =>
          let rt := gatherTables env path tables wm
          rt.errs.isEmpty && (env.closeErr path).isNone &&
            pathsOK env tables rest rt.wm

/-- The last value written for a key by an in-order sequence of map
assignments, if any. -/
def lastAssign {α : Type} : List (String × α) → String → Option α
  | [], _ => none
  | p :: rest, k =>
      match lastAssign rest k with
      | some v => some v
      | none => if p.1 = k then some p.2 else none

/-- Two maps agreeing outside the lower-cased names of the given columns. -/
def sameOutside {α : Type} (cols : List String)
    (m b : List (String × α)) : Prop :=
  ∀ k, k ∉ cols.map String.toLower → mget m k = mget b k

/-- The last element of a list, if any. -/
def lastOf {α : Type} : List α → Option α
  | [] => none
  | [a] => some a
  | _ :: b :: rest => lastOf (b :: rest)

/-! ### Map and heap lemmas -/

theorem mget_mset {α : Type} (m : List (String × α)) (k k' : String) (v : α) :
    mget (mset m k v) k' = if k' = k then some v else mget m k' := by
  induction m with
  | nil =>
      by_cases hk : k' = k
      · subst hk; simp [mset, mget]
      · have hkk : ¬ k = k' := fun hh => hk hh.symm
        simp [mset, mget, hk, hkk]
  | cons e rest ih =>
      by_cases he : e.1 = k
      · by_cases hk : k' = k
        · subst hk; simp [mset, mget, he]
        · have hkk : ¬ k = k' := fun hh => hk hh.symm
          simp [mset, mget, he, hk, hkk]
      · by_cases hk : e.1 = k'
        · have h1 : ¬ k' = k := fun hh => he (hk.trans hh)
          simp [mset, mget, he, hk, h1]
        · simp [mset, mget, he, hk, ih]

theorem getD_append_self {α : Type} (l : List α) (x : α) (d : α) :
    (l ++ [x]).getD l.length d = x := by
  induction l with
  | nil => rfl
  | cons a rest ih => simpa using ih

theorem getD_set_ne {α : Type} (l : List α) (i j : Nat) (x : α) (d : α)
    (h : i ≠ j) : (l.set i x).getD j d = l.getD j d := by
  induction l generalizing i j with
  | nil => rfl
  | cons a rest ih =>
      cases i with
      | zero =>
          cases j with
          | zero => exact absurd rfl h
          | succ j' => rfl
      | succ i' =>
          cases j with
          | zero => rfl
          | succ j' => simpa using ih i' j' (fun hh => h (by omega))

theorem getD_set_self {α : Type} (l : List α) (i : Nat) (x : α) (d : α)
    (h : i < l.length) : (l.set i x).getD i d = x := by
  induction l generalizing i with
  | nil => simp at h
  | cons a rest ih =>
      cases i with
      | zero => rfl
      | succ i' => simpa using ih i' (by simp at h; omega)

theorem getD_append_left {α : Type} (l l' : List α) (i : Nat) (d : α)
    (h : i < l.length) : (l ++ l').getD i d = l.getD i d := by
  induction l generalizing i with
  | nil => simp at h
  | cons a rest ih =>
      cases i with
      | zero => rfl
      | succ i' => simpa using ih i' (by simp at h; omega)

theorem hread_halloc_fresh (h : Heap) (m : WMap) :
    hread (halloc h m).1 (halloc h m).2 = m := by
  simp only [halloc, hread]
  exact getD_append_self h.cells m []

theorem hread_hwrite_ne (h : Heap) (r r' : Ref) (m : WMap) (hne : r ≠ r') :
    hread (hwrite h r m) r' = hread h r' := by
  simp only [hwrite, hread]
  exact getD_set_ne h.cells r r' m [] hne

/-- C2: the query built for a table descriptor selects the timestamp
column first, then the tag columns, then the field columns, from the
descriptor's table, ordered ascending by the timestamp column, and carries
a `timestamp > T` filter exactly when the watermark map has entry `T` for
the table name (unfiltered otherwise). -/
theorem buildQuery_shape (wm : WMap) (t : TableDescription) :
    (buildQuery wm t).table = t.name ∧
    (buildQuery wm t).selectCols
      = [t.columns.timestamp] ++ t.columns.tags ++ t.columns.fields ∧
    (buildQuery wm t).orderAscBy = t.columns.timestamp ∧
    (∀ T : Int, (buildQuery wm t).whereGt = some T ↔ mget wm t.name = some T) ∧
    ((buildQuery wm t).whereGt = none ↔ mget wm t.name = none) := by
  refine ⟨rfl, rfl, rfl, fun T => Iff.rfl, Iff.rfl⟩

/-- C6: state round trip — for every heap and live state reference,
`SetState` applied to the snapshot `GetState` returns succeeds, and the
watermark mapping the plugin then holds is entry-for-entry the mapping it
held before. -/
theorem setState_getState_roundtrip (h : Heap) (pref : Ref) :
    ∃ h' r',
      SetStateH (GetStateH h pref).1 (GetStateH h pref).2
        = Except.ok (h', r') ∧
      hread h' r' = hread h pref := by
  refine ⟨(halloc h (hread h pref)).1, (halloc h (hread h pref)).2, rfl, ?_⟩
  exact hread_halloc_fresh h (hread h pref)

/-- C10: `Init` always succeeds and resets the watermark mapping to empty,
regardless of the plugin's configuration and of whatever state the plugin
held before (so a state restored via `SetState` before `Init` runs is
discarded by `Init`). -/
theorem init_resets_state (p : Plugin) (h : Heap) (pref : Ref) :
    (InitH p h pref).2 = none ∧
    hread (InitH p h pref).1.1 (InitH p h pref).1.2 = [] := by
  refine ⟨rfl, ?_⟩
  simpa [InitH, SetStateH] using hread_halloc_fresh h []

/-- C8 counterexample: a plugin whose extra table descriptor has an empty
timestamp column is not rejected at configuration load time — `Init`
returns no error and the descriptor sits in the merged catalog. -/
theorem init_accepts_empty_timestamp :
    (InitH
        { databasePaths := ["db"]
        , extraTables :=
            [{ name := "X"
             , columns := { timestamp := "", tags := [], fields := [] } }]
        , state := [] }
        { cells := [[]] } 0).2 = none ∧
    ({ name := "X"
     , columns := { timestamp := "", tags := [], fields := [] } }
        : TableDescription) ∈
      mergedTables
        { databasePaths := ["db"]
        , extraTables :=
            [{ name := "X"
             , columns := { timestamp := "", tags := [], fields := [] } }]
        , state := [] } := by
  exact ⟨rfl, by simp [mergedTables, knownTables]⟩

/-- C8 amended: no configuration-time validation happens — for every
plugin, `Init` returns no error, and every extra descriptor, in particular
one whose timestamp column name is empty, is accepted into the merged
catalog. -/
theorem init_no_validation (p : Plugin) (h : Heap) (pref : Ref)
    (t : TableDescription) (hmem : t ∈ p.extraTables)
    (hts : t.columns.timestamp = "") :
    (InitH p h pref).2 = none ∧ t ∈ mergedTables p := by
  exact ⟨rfl, by simp [mergedTables, hmem]⟩

theorem init_no_validation_witness :
    (InitH
        { databasePaths := []
        , extraTables :=
            [{ name := "X"
             , columns := { timestamp := "", tags := [], fields := [] } }]
        , state := [] }
        { cells := [] } 0).2 = none ∧
    ({ name := "X"
     , columns := { timestamp := "", tags := [], fields := [] } }
        : TableDescription) ∈
      mergedTables
        { databasePaths := []
        , extraTables :=
            [{ name := "X"
             , columns := { timestamp := "", tags := [], fields := [] } }]
        , state := [] } :=
  init_no_validation _ _ 0 _ (by simp) rfl

/-- C9 counterexample: after `SetState` of a snapshot, the plugin's state
aliases the caller's mapping — the caller holds reference 0, the plugin
adopts that same reference, and the caller's subsequent write of
`("t", 99)` is visible in the plugin's watermark state, which the claim
says must not happen. -/
theorem setState_aliases_caller_map :
    SetStateH { cells := [[("t", 1)]] } (StateArg.snapshot 0)
      = Except.ok ({ cells := [[("t", 1)]] }, 0) ∧
    hread (setEntryH { cells := [[("t", 1)]] } 0 "t" 99) 0 = [("t", 99)] ∧
    ([("t", (99 : Int))] : WMap) ≠ [("t", 1)] := by
  refine ⟨rfl, ?_, by decide⟩
  rfl

/-- C9 amended: the snapshot returned by `GetState` never aliases the live
mapping — mutating it leaves the plugin's watermark state unchanged — but
`SetState` stores the caller's mapping without copying, so after restoring
a snapshot the plugin holds the caller's own reference and a mutation
through it is visible as the plugin's state. -/
theorem getState_no_alias_setState_aliases (h : Heap) (pref : Ref)
    (k : String) (v : Int) (hlt : pref < h.cells.length) :
    (∀ r, (GetStateH h pref).2 = StateArg.snapshot r →
        hread (setEntryH (GetStateH h pref).1 r k v) pref = hread h pref) ∧
    (∀ r, r < h.cells.length →
        SetStateH h (StateArg.snapshot r) = Except.ok (h, r) ∧
        hread (setEntryH h r k v) r = mset (hread h r) k v) := by
  constructor
  · intro r hr
    have hr' : r = h.cells.length := by
      have := hr.symm
      simp only [GetStateH, halloc, StateArg.snapshot.injEq] at this
      exact this
    subst hr'
    have hne : h.cells.length ≠ pref := Nat.ne_of_gt hlt
    calc hread (setEntryH (GetStateH h pref).1 h.cells.length k v) pref
        = hread (GetStateH h pref).1 pref := hread_hwrite_ne _ _ _ _ hne
      _ = hread h pref := getD_append_left h.cells _ pref [] hlt
  · intro r hr
    exact ⟨rfl, getD_set_self h.cells r _ [] hr⟩

theorem getState_no_alias_setState_aliases_witness :
    (∀ r, (GetStateH { cells := [[("t", 1)]] } 0).2 = StateArg.snapshot r →
        hread (setEntryH (GetStateH { cells := [[("t", 1)]] } 0).1 r "t" 99) 0
          = hread { cells := [[("t", 1)]] } 0) ∧
    (SetStateH { cells := [[("t", 1)]] } (StateArg.snapshot 0)
          = Except.ok ({ cells := [[("t", 1)]] }, 0) ∧
        hread (setEntryH { cells := [[("t", 1)]] } 0 "t" 99) 0
          = mset (hread { cells := [[("t", 1)]] } 0) "t" 99) :=
  ⟨(getState_no_alias_setState_aliases { cells := [[("t", 1)]] } 0 "t" 99
      (by decide)).1,
   (getState_no_alias_setState_aliases { cells := [[("t", 1)]] } 0 "t" 99
      (by decide)).2 0 (by decide)⟩

/-! ### Row-loop lemmas -/

theorem advanceCalls_map_ok (l : List Row) :
    advanceCalls (l.map Except.ok) = l.map Row.ts := by
  induction l with
  | nil => rfl
  | cons r rest ih => simp [advanceCalls, ih]

theorem processRows_wm (t : TableDescription)
    (cur : List (Except String Row)) (st : TState) :
    (processRows t cur st).1.wm = wmFold t.name st.wm (advanceCalls cur) := by
  induction cur generalizing st with
  | nil => rfl
  | cons c rest ih =>
      cases c with
      | error e => rfl
      | ok r =>
          show (processRows t rest (processRow t st r).1).1.wm
              = wmFold t.name st.wm (r.ts :: advanceCalls rest)
          rw [ih]
          rfl

theorem mget_wmFold_ne (n m : String) (w : WMap) (xs : List Int)
    (h : m ≠ n) : mget (wmFold n w xs) m = mget w m := by
  induction xs generalizing w with
  | nil => rfl
  | cons x rest ih =>
      calc mget (wmFold n (mset w n x) rest) m
          = mget (mset w n x) m := ih (mset w n x)
        _ = mget w m := by simp [mget_mset, h]

theorem mget_wmFold_last (n : String) (w : WMap) (xs : List Int) (x : Int)
    (h : lastOf xs = some x) : mget (wmFold n w xs) n = some x := by
  induction xs generalizing w with
  | nil => exact absurd h (by simp [lastOf])
  | cons a rest ih =>
      cases rest with
      | nil =>
          have : a = x := by simpa [lastOf] using h
          subst this
          simp [wmFold, mget_mset]
      | cons b rs =>
          have h' : lastOf (b :: rs) = some x := by simpa [lastOf] using h
          exact ih (mset w n a) h'

/-- C3: a scan failure partway through a table abandons only the remaining
rows — the loop's result is exactly the result of processing the good
prefix (all points emitted for earlier rows stay emitted, one point per
row), the failure is reported, and the watermark keeps the value advanced
by the last successfully emitted row. -/
theorem scan_failure_keeps_progress (t : TableDescription) (st : TState)
    (gs : List Row) (e : String) (rest : List (Except String Row)) :
    processRows t (gs.map Except.ok ++ Except.error e :: rest) st
      = ((processRows t (gs.map Except.ok) st).1,
         (processRows t (gs.map Except.ok) st).2.1, some e)
    ∧ (processRows t (gs.map Except.ok) st).2.1.length = gs.length
    ∧ ∀ g, lastOf gs = some g →
        mget (processRows t (gs.map Except.ok) st).1.wm t.name = some g.ts := by
  induction gs generalizing st with
  | nil => exact ⟨rfl, rfl, fun g hg => absurd hg (by simp [lastOf])⟩
  | cons g gs ih =>
      obtain ⟨ih1, ih2, ih3⟩ := ih (processRow t st g).1
      refine ⟨?_, ?_, ?_⟩
      · simp only [List.map_cons, List.cons_append, processRows, List.append_eq]
        rw [ih1]
      · simpa [processRows] using ih2
      · intro glast hlast
        cases gs with
        | nil =>
            have : g = glast := by simpa [lastOf] using hlast
            subst this
            simp [processRows, processRow, mget_mset]
        | cons g2 gs2 =>
            have h' : lastOf (g2 :: gs2) = some glast := by
              simpa [lastOf] using hlast
            simpa [processRows] using ih3 glast h'

theorem scan_failure_keeps_progress_witness :
    (processRows
        { name := "T", columns := { timestamp := "TS", tags := [], fields := [] } }
        ([{ ts := 7, tagVals := [], fieldVals := [] }].map Except.ok
          ++ Except.error "boom" :: [])
        { tags := [("database_path", "p")], fields := [], wm := [] }
      = ((processRows
            { name := "T", columns := { timestamp := "TS", tags := [], fields := [] } }
            ([{ ts := 7, tagVals := [], fieldVals := [] }].map Except.ok)
            { tags := [("database_path", "p")], fields := [], wm := [] }).1,
         (processRows
            { name := "T", columns := { timestamp := "TS", tags := [], fields := [] } }
            ([{ ts := 7, tagVals := [], fieldVals := [] }].map Except.ok)
            { tags := [("database_path", "p")], fields := [], wm := [] }).2.1,
         some "boom"))
    ∧ mget (processRows
          { name := "T", columns := { timestamp := "TS", tags := [], fields := [] } }
          ([{ ts := 7, tagVals := [], fieldVals := [] }].map Except.ok)
          { tags := [("database_path", "p")], fields := [], wm := [] }).1.wm "T"
        = some 7 :=
  ⟨(scan_failure_keeps_progress _ _ _ "boom" []).1,
   (scan_failure_keeps_progress
      { name := "T", columns := { timestamp := "TS", tags := [], fields := [] } }
      { tags := [("database_path", "p")], fields := [], wm := [] }
      [{ ts := 7, tagVals := [], fieldVals := [] }] "boom" []).2.2
     { ts := 7, tagVals := [], fieldVals := [] } rfl⟩

/-! ### Sorting lemmas for the ascending-timestamp scan order -/

theorem mem_insertRow (a r : Row) (l : List Row) :
    a ∈ insertRow r l ↔ a = r ∨ a ∈ l := by
  induction l with
  | nil => simp [insertRow]
  | cons x xs ih =>
      by_cases hle : r.ts ≤ x.ts
      · simp [insertRow, hle]
      · simp only [insertRow, if_neg hle, List.mem_cons, ih]
        tauto

theorem mem_sortRows (a : Row) (l : List Row) :
    a ∈ sortRows l ↔ a ∈ l := by
  induction l with
  | nil => simp [sortRows]
  | cons x xs ih =>
      simp only [sortRows, mem_insertRow, ih, List.mem_cons]

theorem ascRows_insertRow (r : Row) (l : List Row) (h : ascRows l) :
    ascRows (insertRow r l) := by
  induction l with
  | nil => trivial
  | cons x xs ih =>
      by_cases hle : r.ts ≤ x.ts
      · simp only [insertRow, if_pos hle]
        exact ⟨hle, h⟩
      · have hx : x.ts ≤ r.ts := le_of_not_le hle
        simp only [insertRow, if_neg hle]
        cases xs with
        | nil => exact ⟨hx, trivial⟩
        | cons y ys =>
            have h1 : x.ts ≤ y.ts := h.1
            have ih' := ih h.2
            by_cases hry : r.ts ≤ y.ts
            · simp only [insertRow, if_pos hry] at ih' ⊢
              exact ⟨hx, ih'⟩
            · simp only [insertRow, if_neg hry] at ih' ⊢
              exact ⟨h1, ih'⟩

theorem ascRows_sortRows (l : List Row) : ascRows (sortRows l) := by
  induction l with
  | nil => trivial
  | cons x xs ih => exact ascRows_insertRow x (sortRows xs) ih

theorem ts_le_lastOf (l : List Row) (hasc : ascRows l) (x : Row)
    (hx : lastOf l = some x) : ∀ a ∈ l, a.ts ≤ x.ts := by
  induction l with
  | nil => intro a ha; simp at ha
  | cons y ys ih =>
      intro a ha
      cases ys with
      | nil =>
          have hay : a = y := by simpa using ha
          have hyx : y = x := by simpa [lastOf] using hx
          subst hay; subst hyx
          exact le_refl _
      | cons z zs =>
          have h1 : y.ts ≤ z.ts := hasc.1
          have hx' : lastOf (z :: zs) = some x := by simpa [lastOf] using hx
          rcases List.mem_cons.mp ha with hay | ha'
          · subst hay
            have hz : z.ts ≤ x.ts := ih hasc.2 hx' z (by simp)
            omega
          · exact ih hasc.2 hx' a ha'

theorem nondec_map_ts (l : List Row) (h : ascRows l) :
    nondecInt (l.map Row.ts) := by
  induction l with
  | nil => trivial
  | cons x xs ih =>
      cases xs with
      | nil => trivial
      | cons y ys => exact ⟨h.1, ih h.2⟩

/-- C7 counterexample: a table holding two rows with the same timestamp
makes the loop advance the watermark twice with equal values — the
advance-call sequence of the scan is `[100, 100]`, which is not strictly
increasing. -/
theorem advances_not_strictly_increasing :
    tableAdvances
        (pureEnv (fun _ n =>
          if n = "BATTERY_LEVEL" then
            [ { ts := 100, tagVals := ["d", "0"], fieldVals := [Scalar.int 50] }
            , { ts := 100, tagVals := ["d", "1"], fieldVals := [Scalar.int 60] } ]
          else []))
        "p"
        { name := "BATTERY_LEVEL"
        , columns := { timestamp := "TIMESTAMP"
                     , tags := ["DEVICE_ID", "BATTERY_INDEX"]
                     , fields := ["LEVEL"] } }
        []
      = [100, 100]
    ∧ ¬ strictIncInt [100, 100] := by
  refine ⟨rfl, fun hc => absurd hc.1 (by omega)⟩

/-- C7 amended: within one extraction of a table (one `gatherTable` run
against the honest engine semantics over any table contents), the sequence
of timestamps with which the loop advances the table's watermark is
non-decreasing — not strictly increasing in general, since rows may share
a timestamp — and every advanced value is strictly greater than the
watermark entry the cycle started from, when one was stored. -/
theorem advances_nondecreasing (store : DataStore) (path : String)
    (t : TableDescription) (wm : WMap) :
    nondecInt (tableAdvances (pureEnv store) path t wm)
    ∧ ∀ x ∈ tableAdvances (pureEnv store) path t wm,
        ∀ v, mget wm t.name = some v → v < x := by
  have hcalls : tableAdvances (pureEnv store) path t wm
      = (queryRows (mget wm t.name) (store path t.name)).map Row.ts := by
    simp [tableAdvances, pureEnv, buildQuery, advanceCalls_map_ok]
  constructor
  · rw [hcalls]
    exact nondec_map_ts _ (ascRows_sortRows _)
  · intro x hx v hv
    rw [hcalls] at hx
    rcases List.mem_map.mp hx with ⟨r, hr, hrts⟩
    have hrf : r ∈ (store path t.name).filter (rowPass (mget wm t.name)) :=
      (mem_sortRows r _).mp hr
    have hpass : rowPass (mget wm t.name) r = true :=
      (List.mem_filter.mp hrf).2
    rw [hv] at hpass
    have : v < r.ts := by simpa [rowPass] using hpass
    omega

theorem advances_nondecreasing_witness :
    nondecInt (tableAdvances
        (pureEnv (fun _ _ => [{ ts := 5, tagVals := [], fieldVals := [] }]))
        "p"
        { name := "T", columns := { timestamp := "TS", tags := [], fields := [] } }
        [("T", 3)])
    ∧ (3 : Int) < 5 :=
  ⟨(advances_nondecreasing _ "p" _ [("T", 3)]).1,
   (advances_nondecreasing
      (fun _ _ => [{ ts := 5, tagVals := [], fieldVals := [] }]) "p"
      { name := "T", columns := { timestamp := "TS", tags := [], fields := [] } }
      [("T", 3)]).2 5 (by simp [tableAdvances, pureEnv, buildQuery, mget,
        queryRows, rowPass, sortRows, insertRow, advanceCalls]) 3 rfl⟩

/-! ### Idempotent-resume machinery (C1) -/

theorem lastOf_map {α β : Type} (f : α → β) (l : List α) :
    lastOf (l.map f) = (lastOf l).map f := by
  induction l with
  | nil => rfl
  | cons a rest ih =>
      cases rest with
      | nil => rfl
      | cons b rs => simpa [lastOf] using ih

theorem lastOf_mem {α : Type} (l : List α) (a : α) (h : lastOf l = some a) :
    a ∈ l := by
  induction l with
  | nil => simp [lastOf] at h
  | cons x xs ih =>
      cases xs with
      | nil =>
          have : x = a := by simpa [lastOf] using h
          simp [this]
      | cons y ys =>
          have h' : lastOf (y :: ys) = some a := by simpa [lastOf] using h
          simp [ih h']

theorem lastOf_cons_isSome {α : Type} (x : α) (xs : List α) :
    ∃ a, lastOf (x :: xs) = some a := by
  induction xs generalizing x with
  | nil => exact ⟨x, rfl⟩
  | cons y ys ih => simpa [lastOf] using ih y

theorem filter_eq_nil_of_false {α : Type} (l : List α) (p : α → Bool)
    (h : ∀ a ∈ l, p a = false) : l.filter p = [] := by
  induction l with
  | nil => rfl
  | cons a rest ih =>
      have ha := h a (by simp)
      simp only [List.filter, ha]
      exact ih (fun b hb => h b (by simp [hb]))

theorem processRows_map_ok_err (t : TableDescription) (l : List Row)
    (st : TState) : (processRows t (l.map Except.ok) st).2.2 = none := by
  induction l generalizing st with
  | nil => rfl
  | cons r rest ih => simpa [processRows] using ih (processRow t st r).1

theorem wmMono_refl (w : WMap) : wmMono w w :=
  fun n v h => ⟨v, h, le_refl v⟩

theorem wmMono_trans (w1 w2 w3 : WMap) (h12 : wmMono w1 w2)
    (h23 : wmMono w2 w3) : wmMono w1 w3 := by
  intro n v h
  rcases h12 n v h with ⟨v2, hv2, hle2⟩
  rcases h23 n v2 hv2 with ⟨v3, hv3, hle3⟩
  exact ⟨v3, hv3, le_trans hle2 hle3⟩

theorem tableDone_mono (store : DataStore) (w w' : WMap) (path : String)
    (t : TableDescription) (hd : tableDone store w path t)
    (hm : wmMono w w') : tableDone store w' path t := by
  intro r hr
  rcases hd r hr with ⟨v, hv, hle⟩
  rcases hm t.name v hv with ⟨v', hv', hle'⟩
  exact ⟨v', hv', le_trans hle hle'⟩

/-- After one `gatherTable` run against the honest engine semantics: no
error is reported, every watermark entry is preserved or increased, and
the table's watermark covers every row of the table. -/
theorem gatherTable_pure (store : DataStore) (path : String)
    (t : TableDescription) (wm : WMap) :
    (gatherTable (pureEnv store) path t wm).2 = none
    ∧ wmMono wm (gatherTable (pureEnv store) path t wm).1.1
    ∧ tableDone store (gatherTable (pureEnv store) path t wm).1.1 path t := by
  have hL : gatherTable (pureEnv store) path t wm
      = (((processRows t
            ((queryRows (mget wm t.name) (store path t.name)).map Except.ok)
            { tags := [("database_path", path)], fields := [], wm := wm }).1.wm,
          (processRows t
            ((queryRows (mget wm t.name) (store path t.name)).map Except.ok)
            { tags := [("database_path", path)], fields := [], wm := wm }).2.1),
         (processRows t
            ((queryRows (mget wm t.name) (store path t.name)).map Except.ok)
            { tags := [("database_path", path)], fields := [], wm := wm }).2.2) :=
    rfl
  have hwm : (gatherTable (pureEnv store) path t wm).1.1
      = wmFold t.name wm
          ((queryRows (mget wm t.name) (store path t.name)).map Row.ts) := by
    rw [hL]
    simp only [processRows_wm, advanceCalls_map_ok]
  have hpassL : ∀ r ∈ queryRows (mget wm t.name) (store path t.name),
      rowPass (mget wm t.name) r = true := by
    intro r hr
    have : r ∈ (store path t.name).filter (rowPass (mget wm t.name)) :=
      (mem_sortRows r _).mp hr
    exact (List.mem_filter.mp this).2
  have hmono : wmMono wm (gatherTable (pureEnv store) path t wm).1.1 := by
    rw [hwm]
    intro n v hv
    by_cases hn : n = t.name
    · subst hn
      cases hQ : queryRows (mget wm t.name) (store path t.name) with
      | nil =>
          refine ⟨v, ?_, le_refl v⟩
          simpa [wmFold] using hv
      | cons q qs =>
          rcases lastOf_cons_isSome q qs with ⟨lr, hlr⟩
          have hcalls : lastOf (((q :: qs) : List Row).map Row.ts)
              = some lr.ts := by
            rw [lastOf_map, hlr]; rfl
          have hlrmem : lr ∈ q :: qs := lastOf_mem _ lr hlr
          have hpass := hpassL lr (by rw [hQ]; exact hlrmem)
          rw [hv] at hpass
          have hlt : v < lr.ts := by simpa [rowPass] using hpass
          refine ⟨lr.ts, ?_, le_of_lt hlt⟩
          exact mget_wmFold_last t.name wm _ lr.ts hcalls
    · exact ⟨v, by rw [mget_wmFold_ne t.name n wm _ hn]; exact hv, le_refl v⟩
  refine ⟨by rw [hL]; exact processRows_map_ok_err t _ _, hmono, ?_⟩
  intro r hr
  by_cases hp : rowPass (mget wm t.name) r = true
  · have hrL : r ∈ queryRows (mget wm t.name) (store path t.name) := by
      apply (mem_sortRows r _).mpr
      exact List.mem_filter.mpr ⟨hr, hp⟩
    cases hQ : queryRows (mget wm t.name) (store path t.name) with
    | nil => rw [hQ] at hrL; simp at hrL
    | cons q qs =>
        rcases lastOf_cons_isSome q qs with ⟨lr, hlr⟩
        have hle : r.ts ≤ lr.ts := by
          apply ts_le_lastOf (q :: qs) ?_ lr hlr r (by rw [hQ] at hrL; exact hrL)
          have := ascRows_sortRows
            ((store path t.name).filter (rowPass (mget wm t.name)))
          rw [show sortRows ((store path t.name).filter (rowPass (mget wm t.name)))
              = queryRows (mget wm t.name) (store path t.name) from rfl, hQ] at this
          exact this
        have hcalls : lastOf (((q :: qs) : List Row).map Row.ts) = some lr.ts := by
          rw [lastOf_map, hlr]; rfl
        refine ⟨lr.ts, ?_, hle⟩
        rw [hwm, hQ]
        exact mget_wmFold_last t.name wm _ lr.ts hcalls
  · have hform : ∃ v0, mget wm t.name = some v0 ∧ r.ts ≤ v0 := by
      cases hv : mget wm t.name with
      | none => exact absurd (by simp [rowPass, hv]) hp
      | some v0 =>
          refine ⟨v0, rfl, ?_⟩
          have : ¬ v0 < r.ts := by
            intro hlt
            exact hp (by simp [rowPass, hv, hlt])
          omega
    rcases hform with ⟨v0, hv0, hle0⟩
    rcases hmono t.name v0 hv0 with ⟨v', hv', hle'⟩
    exact ⟨v', hv', le_trans hle0 hle'⟩

/-- After one pass of the table loop over the honest engine: no errors,
the watermark only grows, and every table of the list is covered. -/
theorem gatherTables_pure (store : DataStore) (path : String)
    (ts : List TableDescription) (wm : WMap) :
    (gatherTables (pureEnv store) path ts wm).errs = []
    ∧ wmMono wm (gatherTables (pureEnv store) path ts wm).wm
    ∧ ∀ t ∈ ts, tableDone store (gatherTables (pureEnv store) path ts wm).wm
        path t := by
  induction ts generalizing wm with
  | nil => exact ⟨rfl, wmMono_refl wm, fun t ht => absurd ht (by simp)⟩
  | cons t ts' ih =>
      obtain ⟨herr, hmono, hdone⟩ := gatherTable_pure store path t wm
      obtain ⟨ih1, ih2, ih3⟩ := ih (gatherTable (pureEnv store) path t wm).1.1
      have hred : gatherTables (pureEnv store) path (t :: ts') wm
          = { wm := (gatherTables (pureEnv store) path ts'
                (gatherTable (pureEnv store) path t wm).1.1).wm
            , points := (gatherTable (pureEnv store) path t wm).1.2
                ++ (gatherTables (pureEnv store) path ts'
                     (gatherTable (pureEnv store) path t wm).1.1).points
            , errs := (gatherTables (pureEnv store) path ts'
                (gatherTable (pureEnv store) path t wm).1.1).errs } := by
        simp only [gatherTables, herr]
        rfl
      refine ⟨by rw [hred]; exact ih1, ?_, ?_⟩
      · rw [hred]
        exact wmMono_trans _ _ _ hmono ih2
      · intro u hu
        rcases List.mem_cons.mp hu with hu1 | hu2
        · subst hu1
          rw [hred]
          exact tableDone_mono store _ _ path u hdone ih2
        · rw [hred]
          exact ih3 u hu2

/-- After one full cycle over the honest engine: no errors, the watermark
only grows, and every table of every processed path is covered. -/
theorem gatherPaths_pure (store : DataStore) (tables : List TableDescription)
    (paths : List String) (wm : WMap) :
    (gatherPaths (pureEnv store) tables paths wm).errs = []
    ∧ wmMono wm (gatherPaths (pureEnv store) tables paths wm).wm
    ∧ ∀ path ∈ paths, ∀ t ∈ tables,
        tableDone store (gatherPaths (pureEnv store) tables paths wm).wm
          path t := by
  induction paths generalizing wm with
  | nil => exact ⟨rfl, wmMono_refl wm, fun p hp => absurd hp (by simp)⟩
  | cons path rest ih =>
      obtain ⟨t1, t2, t3⟩ := gatherTables_pure store path tables wm
      obtain ⟨ih1, ih2, ih3⟩ :=
        ih (gatherTables (pureEnv store) path tables wm).wm
      have hred : gatherPaths (pureEnv store) tables (path :: rest) wm
          = { wm := (gatherPaths (pureEnv store) tables rest
                (gatherTables (pureEnv store) path tables wm).wm).wm
            , points := (gatherTables (pureEnv store) path tables wm).points
                ++ (gatherPaths (pureEnv store) tables rest
                     (gatherTables (pureEnv store) path tables wm).wm).points
            , errs := (gatherTables (pureEnv store) path tables wm).errs
                ++ [] ++ (gatherPaths (pureEnv store) tables rest
                     (gatherTables (pureEnv store) path tables wm).wm).errs } :=
        rfl
      refine ⟨?_, ?_, ?_⟩
      · rw [hred]
        simp [t1, ih1]
      · rw [hred]
        exact wmMono_trans _ _ _ t2 ih2
      · intro p hp t ht
        rcases List.mem_cons.mp hp with hp1 | hp2
        · subst hp1
          rw [hred]
          exact tableDone_mono store _ _ p t (t3 t ht) ih2
        · rw [hred]
          exact ih3 p hp2 t ht

/-- A table already covered by the watermark is a no-op for `gatherTable`:
the query returns no rows, so no point is emitted, no error occurs and the
watermark map is unchanged. -/
theorem gatherTable_noop (store : DataStore) (path : String)
    (t : TableDescription) (wm : WMap)
    (hdone : tableDone store wm path t) :
    gatherTable (pureEnv store) path t wm = ((wm, []), none) := by
  have hfil : (store path t.name).filter (rowPass (mget wm t.name)) = [] := by
    apply filter_eq_nil_of_false
    intro r hr
    rcases hdone r hr with ⟨v, hv, hle⟩
    simp [rowPass, hv]
    omega
  show (match (pureEnv store).runQuery path (buildQuery wm t) with
    | Except.error e => ((wm, []), some e)
    | Except.ok cursor =>
        let r := processRows t cursor
          { tags := [("database_path", path)], fields := [], wm := wm }
        ((r.1.wm, r.2.1), r.2.2)) = ((wm, []), none)
  simp only [pureEnv, buildQuery, queryRows, hfil, sortRows, List.map_nil]
  rfl

theorem gatherTables_noop (store : DataStore) (path : String)
    (ts : List TableDescription) (wm : WMap)
    (hdone : ∀ t ∈ ts, tableDone store wm path t) :
    gatherTables (pureEnv store) path ts wm
      = { wm := wm, points := [], errs := [] } := by
  induction ts with
  | nil => rfl
  | cons t ts' ih =>
      have h1 : gatherTable (pureEnv store) path t wm = ((wm, []), none) :=
        gatherTable_noop store path t wm (hdone t (by simp))
      have h2 := ih (fun u hu => hdone u (by simp [hu]))
      simp only [gatherTables, h1, h2]
      rfl

theorem gatherPaths_noop (store : DataStore) (tables : List TableDescription)
    (paths : List String) (wm : WMap)
    (hdone : ∀ path ∈ paths, ∀ t ∈ tables, tableDone store wm path t) :
    gatherPaths (pureEnv store) tables paths wm
      = { wm := wm, points := [], errs := [] } := by
  induction paths with
  | nil => rfl
  | cons path rest ih =>
      have h1 : gatherTables (pureEnv store) path tables wm
          = { wm := wm, points := [], errs := [] } :=
        gatherTables_noop store path tables wm (fun t ht => hdone path (by simp) t ht)
      have h2 := ih (fun p hp t ht => hdone p (by simp [hp]) t ht)
      have hopen : (pureEnv store).openErr path = none := rfl
      have hclose : (pureEnv store).closeErr path = none := rfl
      simp [gatherPaths, hopen, hclose, h1, h2]

/-- C1: idempotent resume — for a fixed data store, run one full Gather
cycle from empty state, restore the resulting snapshot (`SetState` of the
`GetState` snapshot, whose contents equal the live mapping), and run a
second cycle: it emits zero points and the snapshot after it equals the
snapshot before it. -/
theorem idempotent_resume (store : DataStore) (dps : List String)
    (ext : List TableDescription) :
    (Gather (pureEnv store)
        (setStateV (Plugin.mk dps ext [])
          (getStateV (Plugin.mk dps ext
            (Gather (pureEnv store) (Plugin.mk dps ext [])).wm)))).points = []
    ∧ (Gather (pureEnv store)
        (setStateV (Plugin.mk dps ext [])
          (getStateV (Plugin.mk dps ext
            (Gather (pureEnv store) (Plugin.mk dps ext [])).wm)))).wm
      = (Gather (pureEnv store) (Plugin.mk dps ext [])).wm := by
  have hdone := (gatherPaths_pure store (mergedTables (Plugin.mk dps ext []))
    dps []).2.2
  have hnoop := gatherPaths_noop store (mergedTables (Plugin.mk dps ext []))
    dps (Gather (pureEnv store) (Plugin.mk dps ext [])).wm hdone
  constructor
  · show (gatherPaths (pureEnv store) (mergedTables (Plugin.mk dps ext []))
        dps (Gather (pureEnv store) (Plugin.mk dps ext [])).wm).points = []
    rw [hnoop]
  · show (gatherPaths (pureEnv store) (mergedTables (Plugin.mk dps ext []))
        dps (Gather (pureEnv store) (Plugin.mk dps ext [])).wm).wm
      = (Gather (pureEnv store) (Plugin.mk dps ext [])).wm
    rw [hnoop]

/-! ### Error aggregation (C4) -/

theorem errs_nil_iff_pathsOK (env : DBEnv) (tables : List TableDescription)
    (paths : List String) (wm : WMap) :
    (gatherPaths env tables paths wm).errs = []
      ↔ pathsOK env tables paths wm = true := by
  induction paths generalizing wm with
  | nil => simp [gatherPaths, pathsOK]
  | cons path rest ih =>
      cases hopen : env.openErr path with
      | some e => simp [gatherPaths, pathsOK, hopen]
      | none =>
          cases hclose : env.closeErr path with
          | some e => simp [gatherPaths, pathsOK, hopen, hclose]
          | none => simp [gatherPaths, pathsOK, hopen, hclose, ih]

/-- C4: the cycle visits every configured source and, per source, every
descriptor of the merged catalog (built-ins then extras, in order).  An
open failure records one error and skips only that source (nothing else of
the result changes); a per-table failure records one error, keeps that
table's already-emitted points, and continues with the next descriptor; a
close failure records one error.  The aggregate error is nil exactly when
the recorded list is empty, which happens exactly when no individual
open/table/close failure occurred; points of successful tables are
delivered even when other tables or sources fail. -/
theorem gather_error_aggregation (env : DBEnv) (p : Plugin) :
    mergedTables p = knownTables ++ p.extraTables
    ∧ Gather env p
        = gatherPaths env (mergedTables p) p.databasePaths p.state
    ∧ (gatherError (Gather env p).errs = none ↔ (Gather env p).errs = [])
    ∧ ((Gather env p).errs = []
        ↔ pathsOK env (mergedTables p) p.databasePaths p.state = true)
    ∧ (∀ tables path rest wm e, env.openErr path = some e →
        gatherPaths env tables (path :: rest) wm
          = { wm := (gatherPaths env tables rest wm).wm
            , points := (gatherPaths env tables rest wm).points
            , errs := ("failed to open database " ++ path ++ ": " ++ e)
                :: (gatherPaths env tables rest wm).errs })
    ∧ (∀ path t ts wm e, (gatherTable env path t wm).2 = some e →
        gatherTables env path (t :: ts) wm
          = { wm := (gatherTables env path ts
                (gatherTable env path t wm).1.1).wm
            , points := (gatherTable env path t wm).1.2
                ++ (gatherTables env path ts
                     (gatherTable env path t wm).1.1).points
            , errs := ("error at table " ++ t.name ++ ": " ++ e)
                :: (gatherTables env path ts
                     (gatherTable env path t wm).1.1).errs })
    ∧ (∀ tables path rest wm e, env.openErr path = none →
        env.closeErr path = some e →
        gatherPaths env tables (path :: rest) wm
          = { wm := (gatherPaths env tables rest
                (gatherTables env path tables wm).wm).wm
            , points := (gatherTables env path tables wm).points
                ++ (gatherPaths env tables rest
                     (gatherTables env path tables wm).wm).points
            , errs := (gatherTables env path tables wm).errs
                ++ ["failed to close database " ++ path ++ ": " ++ e]
                ++ (gatherPaths env tables rest
                     (gatherTables env path tables wm).wm).errs }) := by
  refine ⟨rfl, rfl, ?_, errs_nil_iff_pathsOK env _ _ _, ?_, ?_, ?_⟩
  · cases h : (Gather env p).errs with
    | nil => simp [gatherError]
    | cons a rest => simp [gatherError]
  · intro tables path rest wm e hopen
    simp [gatherPaths, hopen]
  · intro path t ts wm e herr
    have hred : gatherTables env path (t :: ts) wm
        = { wm := (gatherTables env path ts
              (gatherTable env path t wm).1.1).wm
          , points := (gatherTable env path t wm).1.2
              ++ (gatherTables env path ts
                   (gatherTable env path t wm).1.1).points
          , errs :=
              (match (gatherTable env path t wm).2 with
               | none => []
               | some e => ["error at table " ++ t.name ++ ": " ++ e])
              ++ (gatherTables env path ts
                   (gatherTable env path t wm).1.1).errs } := rfl
    rw [hred, herr]
    rfl
  · intro tables path rest wm e hopen hclose
    simp [gatherPaths, hopen, hclose]

theorem gather_error_aggregation_witness :
    gatherPaths
        { openErr := fun _ => some "no such file"
        , runQuery := fun _ _ => Except.ok []
        , closeErr := fun _ => none }
        [] ("a" :: ["b"]) []
      = { wm := (gatherPaths
            { openErr := fun _ => some "no such file"
            , runQuery := fun _ _ => Except.ok []
            , closeErr := fun _ => none } [] ["b"] []).wm
        , points := (gatherPaths
            { openErr := fun _ => some "no such file"
            , runQuery := fun _ _ => Except.ok []
            , closeErr := fun _ => none } [] ["b"] []).points
        , errs := ("failed to open database " ++ "a" ++ ": " ++ "no such file")
            :: (gatherPaths
              { openErr := fun _ => some "no such file"
              , runQuery := fun _ _ => Except.ok []
              , closeErr := fun _ => none } [] ["b"] []).errs } :=
  (gather_error_aggregation
    { openErr := fun _ => some "no such file"
    , runQuery := fun _ _ => Except.ok []
    , closeErr := fun _ => none }
    { databasePaths := ["a", "b"], extraTables := [], state := [] }).2.2.2.2.1
    [] "a" ["b"] [] "no such file" rfl

/-! ### Point shape (C5): the loop reuses its tags/fields maps across rows;
every configured column is rewritten on every row, so each emitted point's
mappings agree (as lookups) with maps built fresh for that row. -/

theorem mget_foldl_mset {α : Type} (pairs : List (String × α))
    (m : List (String × α)) (k : String) :
    mget (pairs.foldl (fun acc kv => mset acc kv.1 kv.2) m) k
      = (match lastAssign pairs k with
         | some v => some v
         | none => mget m k) := by
  induction pairs generalizing m with
  | nil => rfl
  | cons kv rest ih =>
      show mget (rest.foldl (fun acc kv => mset acc kv.1 kv.2)
          (mset m kv.1 kv.2)) k = _
      rw [ih (mset m kv.1 kv.2)]
      cases h : lastAssign rest k with
      | some v => simp [lastAssign, h]
      | none =>
          simp only [lastAssign, h]
          rw [mget_mset]
          by_cases hk : k = kv.1
          · simp [hk]
          · have hkk : ¬ kv.1 = k := fun hh => hk hh.symm
            simp [hk, hkk]

theorem lastAssign_eq_none {α : Type} (pairs : List (String × α))
    (k : String) :
    lastAssign pairs k = none ↔ k ∉ pairs.map Prod.fst := by
  induction pairs with
  | nil => simp [lastAssign]
  | cons kv rest ih =>
      cases h : lastAssign rest k with
      | some v =>
          have hmem : k ∈ rest.map Prod.fst := by
            by_contra hcon
            rw [ih.mpr hcon] at h
            simp at h
          simp [lastAssign, h, hmem]
      | none =>
          have hnm : k ∉ rest.map Prod.fst := ih.mp h
          by_cases hk : kv.1 = k
          · subst hk
            simp [lastAssign, h]
          · have hkk : ¬ k = kv.1 := fun hh => hk hh.symm
            simp [lastAssign, h, hk, hkk, hnm]

theorem zipLower_keys {α : Type} (cols : List String) (vals : List α)
    (hlen : vals.length = cols.length) :
    (zipLower cols vals).map Prod.fst = cols.map String.toLower := by
  induction cols generalizing vals with
  | nil => simp [zipLower]
  | cons c cs ih =>
      cases vals with
      | nil => simp at hlen
      | cons v vs =>
          have := ih vs (by simpa using hlen)
          simp only [zipLower, List.zip_cons_cons, List.map_cons]
          simp only [zipLower] at this
          rw [this]

theorem zipLower_keys_subset {α : Type} (cols : List String) (vals : List α)
    (k : String) (hk : k ∈ (zipLower cols vals).map Prod.fst) :
    k ∈ cols.map String.toLower := by
  induction cols generalizing vals with
  | nil => simp [zipLower] at hk
  | cons c cs ih =>
      cases vals with
      | nil => simp [zipLower] at hk
      | cons v vs =>
          simp only [zipLower, List.zip_cons_cons, List.map_cons,
            List.mem_cons] at hk ⊢
          rcases hk with h1 | h2
          · exact Or.inl h1
          · exact Or.inr (ih vs (by simpa [zipLower] using h2))

theorem mget_decodeInto_eq {α : Type} (cols : List String) (vals : List α)
    (m b : List (String × α)) (hout : sameOutside cols m b)
    (hlen : vals.length = cols.length) (k : String) :
    mget (decodeInto cols vals m) k = mget (decodeInto cols vals b) k := by
  unfold decodeInto
  rw [mget_foldl_mset, mget_foldl_mset]
  cases h : lastAssign (zipLower cols vals) k with
  | some v => rfl
  | none =>
      have hnot : k ∉ (zipLower cols vals).map Prod.fst :=
        (lastAssign_eq_none _ _).mp h
      rw [zipLower_keys cols vals hlen] at hnot
      exact hout k hnot

theorem sameOutside_decodeInto {α : Type} (cols : List String)
    (vals : List α) (m b : List (String × α))
    (hout : sameOutside cols m b) :
    sameOutside cols (decodeInto cols vals m) b := by
  intro k hk
  unfold decodeInto
  rw [mget_foldl_mset]
  cases h : lastAssign (zipLower cols vals) k with
  | some v =>
      exfalso
      have hmem : k ∈ (zipLower cols vals).map Prod.fst := by
        by_contra hcon
        rw [(lastAssign_eq_none _ _).mpr hcon] at h
        simp at h
      exact hk (zipLower_keys_subset cols vals k hmem)
  | none => exact hout k hk

theorem processRows_points_shape (t : TableDescription) (path : String)
    (rows : List Row) (st : TState)
    (htags : sameOutside t.columns.tags st.tags [("database_path", path)])
    (hflds : sameOutside t.columns.fields st.fields [])
    (harT : ∀ r ∈ rows, r.tagVals.length = t.columns.tags.length)
    (harF : ∀ r ∈ rows, r.fieldVals.length = t.columns.fields.length) :
    ∀ i, ∀ hi : i < rows.length,
      ∃ pt, (processRows t (rows.map Except.ok) st).2.1.get? i = some pt
        ∧ pt.measurement = t.name.toLower
        ∧ pt.time = (rows.get ⟨i, hi⟩).ts
        ∧ (∀ k, mget pt.tags k
            = mget (pointForRow t path (rows.get ⟨i, hi⟩)).tags k)
        ∧ (∀ k, mget pt.fields k
            = mget (pointForRow t path (rows.get ⟨i, hi⟩)).fields k) := by
  induction rows generalizing st with
  | nil => intro i hi; simp at hi
  | cons r rest ih =>
      intro i hi
      cases i with
      | zero =>
          refine ⟨(processRow t st r).2, by simp [processRows], rfl, rfl,
            ?_, ?_⟩
          · intro k
            exact mget_decodeInto_eq t.columns.tags r.tagVals st.tags
              [("database_path", path)] htags (harT r (by simp)) k
          · intro k
            exact mget_decodeInto_eq t.columns.fields r.fieldVals st.fields
              [] hflds (harF r (by simp)) k
      | succ j =>
          have htags' : sameOutside t.columns.tags (processRow t st r).1.tags
              [("database_path", path)] :=
            sameOutside_decodeInto t.columns.tags r.tagVals st.tags
              [("database_path", path)] htags
          have hflds' : sameOutside t.columns.fields
              (processRow t st r).1.fields [] :=
            sameOutside_decodeInto t.columns.fields r.fieldVals st.fields
              [] hflds
          have hj : j < rest.length := by simpa using hi
          rcases ih (processRow t st r).1 htags' hflds'
            (fun x hx => harT x (by simp [hx]))
            (fun x hx => harF x (by simp [hx])) j hj with
            ⟨pt, hget, hms, htime, htg, hfl⟩
          refine ⟨pt, ?_, hms, ?_, ?_, ?_⟩
          · simpa [processRows] using hget
          · simpa using htime
          · simpa using htg
          · simpa using hfl

/-- C5: every emitted point has measurement equal to the lower-cased table
name, a tags mapping equal (as a mapping) to the `database_path` tag for
the source path united with the decoded tag columns keyed by their
lower-cased names, a fields mapping keyed by the lower-cased field column
names, and the row's integer epoch-seconds timestamp — starting from the
loop state `gatherTable` sets up, for any rows whose decoded value counts
match the descriptor (as the scan guarantees). -/
theorem emitted_points_shape (t : TableDescription) (path : String)
    (wm : WMap) (rows : List Row)
    (harT : ∀ r ∈ rows, r.tagVals.length = t.columns.tags.length)
    (harF : ∀ r ∈ rows, r.fieldVals.length = t.columns.fields.length) :
    ∀ i, ∀ hi : i < rows.length,
      ∃ pt, (processRows t (rows.map Except.ok)
          { tags := [("database_path", path)], fields := []
          , wm := wm }).2.1.get? i = some pt
        ∧ pt.measurement = t.name.toLower
        ∧ pt.time = (rows.get ⟨i, hi⟩).ts
        ∧ (∀ k, mget pt.tags k
            = mget (pointForRow t path (rows.get ⟨i, hi⟩)).tags k)
        ∧ (∀ k, mget pt.fields k
            = mget (pointForRow t path (rows.get ⟨i, hi⟩)).fields k) :=
  processRows_points_shape t path rows
    { tags := [("database_path", path)], fields := [], wm := wm }
    (fun k hk => rfl) (fun k hk => rfl) harT harF

theorem emitted_points_shape_witness :
    ∃ pt, (processRows
        { name := "BATTERY_LEVEL"
        , columns := { timestamp := "TIMESTAMP"
                     , tags := ["DEVICE_ID", "BATTERY_INDEX"]
                     , fields := ["LEVEL"] } }
        ([{ ts := 100, tagVals := ["d", "0"]
          , fieldVals := [Scalar.int 50] }].map Except.ok)
        { tags := [("database_path", "p")], fields := [], wm := [] }).2.1.get? 0
          = some pt
      ∧ pt.measurement = ("BATTERY_LEVEL").toLower
      ∧ pt.time = (100 : Int)
      ∧ (∀ k, mget pt.tags k
          = mget (pointForRow
              { name := "BATTERY_LEVEL"
              , columns := { timestamp := "TIMESTAMP"
                           , tags := ["DEVICE_ID", "BATTERY_INDEX"]
                           , fields := ["LEVEL"] } } "p"
              { ts := 100, tagVals := ["d", "0"]
              , fieldVals := [Scalar.int 50] }).tags k)
      ∧ (∀ k, mget pt.fields k
          = mget (pointForRow
              { name := "BATTERY_LEVEL"
              , columns := { timestamp := "TIMESTAMP"
                           , tags := ["DEVICE_ID", "BATTERY_INDEX"]
                           , fields := ["LEVEL"] } } "p"
              { ts := 100, tagVals := ["d", "0"]
              , fieldVals := [Scalar.int 50] }).fields k) :=
  emitted_points_shape
    { name := "BATTERY_LEVEL"
    , columns := { timestamp := "TIMESTAMP"
                 , tags := ["DEVICE_ID", "BATTERY_INDEX"]
                 , fields := ["LEVEL"] } }
    "p" []
    [{ ts := 100, tagVals := ["d", "0"], fieldVals := [Scalar.int 50] }]
    (by intro r hr; simp at hr; subst hr; rfl)
    (by intro r hr; simp at hr; subst hr; rfl)
    0 (by decide)

end Gadgetbridge
